import Mathlib

/-!
Shallow embedding of the frontier service (`src/frontier_service.py`):
the wire codec (`client_packet`, `server_packet_header`, `server_packet`),
the in-memory storage backend (`store_in_ram_interface`), the blacklist
manager, and the crawl loop's failure handling (`single_pass`).

Bytes are modelled as `Nat` (each byte is < 256 on real wire data; the
codec logic itself is independent of that bound).  Python byte strings are
`List Nat`.  Python `assert`-guarded parsers are modelled as `Option`:
`none` is a raised exception.  Wall-clock time (`time.time()`, a float used
only through subtraction and ordering) is modelled as an explicit `Int`
parameter threaded to every call that reads the clock.
-/

set_option autoImplicit false

namespace Pynano

abbrev Byte := Nat

/-- Python `n.to_bytes(k, 'big')` for `n < 256 ^ k` (Python raises
`OverflowError` otherwise; theorems carry that bound as a hypothesis). -/
def serialiseBE : Nat → Nat → List Byte
  | 0, _ => []
  | k + 1, n => serialiseBE k (n / 256) ++ [n % 256]

/-- Python `int.from_bytes(bs, 'big')`. -/
def deserialiseBE (bs : List Byte) : Nat :=
  bs.foldl (fun a b => a * 256 + b) 0

/-- Modelled from the spec: `frontier_request.frontier_entry` is imported
from the `frontier_request` module, which is not under `src/`; spec §3
fixes it as the pair of a 32-byte account identifier and a 32-byte
frontier hash.  The field names are the ones the `src/` code reads. -/
structure frontier_entry where
  account : List Byte
  frontier_hash : List Byte
deriving DecidableEq, Repr

/-- Modelled from the spec: `frontier_entry.serialise` is not under `src/`;
spec §4.1 fixes the record layout as the 32-byte account followed by the
32-byte frontier hash (64 bytes total). -/
def frontier_entry.serialise (f : frontier_entry) : List Byte :=
  f.account ++ f.frontier_hash

/-- `client_packet` from src/frontier_service.py. -/
structure client_packet where
  account : List Byte
deriving DecidableEq, Repr

/-- `client_packet.parse`: `assert len(data) == 33; assert data[0] == ord('K');
account = data[1:]`.  A failed assert is `none`. -/
def client_packet.parse (data : List Byte) : Option client_packet :=
  if data.length = 33 then
    if data.head? = some 75 then some ⟨data.tail⟩ else none
  else none

/-- `client_packet.is_all_zero`: `self.account == b'\x00' * 32`. -/
def client_packet.is_all_zero (c : client_packet) : Bool :=
  c.account == List.replicate 32 0

/-- `client_packet.serialise`: the magic byte `ord('K') = 75` followed by the
account bytes. -/
def client_packet.serialise (c : client_packet) : List Byte :=
  serialiseBE 1 75 ++ c.account

/-- `server_packet_header` from src/frontier_service.py. -/
structure server_packet_header where
  no_of_frontiers : Nat
deriving DecidableEq, Repr

/-- `server_packet_header.serialise`: magic byte then the count as 8
big-endian bytes. -/
def server_packet_header.serialise (h : server_packet_header) : List Byte :=
  serialiseBE 1 75 ++ serialiseBE 8 h.no_of_frontiers

/-- `server_packet_header.parse`: `assert data[0] == ord('K')`, then the count
is `int.from_bytes(data[1:9], 'big')` (Python slicing is lenient, hence
`take 8` with no length check). -/
def server_packet_header.parse (data : List Byte) : Option server_packet_header :=
  if data.head? = some 75 then some ⟨deserialiseBE ((data.drop 1).take 8)⟩ else none

/-- `server_packet` from src/frontier_service.py; its header is computed from
the list at construction time (`server_packet_header(len(frontiers))`). -/
structure server_packet where
  frontiers : List frontier_entry
deriving DecidableEq, Repr

def server_packet.header (p : server_packet) : server_packet_header :=
  ⟨p.frontiers.length⟩

/-- `server_packet.serialise`: header bytes, each frontier's 64-byte record in
order, then the 64-byte all-zero terminator. -/
def server_packet.serialise (p : server_packet) : List Byte :=
  p.header.serialise ++ (p.frontiers.map frontier_entry.serialise).flatten
    ++ List.replicate 64 0

/-- The body-decoding loop of `server_packet.parse`: entry `i` is
`data[64*i : 64*i + 32]` paired with `data[64*i + 32 : 64*i + 64]`; the
running index is modelled by dropping 64 bytes per step. -/
def parseEntries (data : List Byte) : Nat → List frontier_entry
  | 0 => []
  | n + 1 =>
    ⟨data.take 32, (data.drop 32).take 32⟩ :: parseEntries (data.drop 64) n

/-- `server_packet.parse`: `assert len(data) == 64 * hdr.no_of_frontiers + 64`,
then decode `no_of_frontiers` 64-byte records from the front of `data`. -/
def server_packet.parse (hdr : server_packet_header) (data : List Byte) :
    Option server_packet :=
  if data.length = 64 * hdr.no_of_frontiers + 64 then
    some ⟨parseEntries data hdr.no_of_frontiers⟩
  else none

end Pynano

namespace Pynano

/-! ### store_in_ram_interface

The in-memory backend's state is its private `__frontiers` list. -/

/-- `store_in_ram_interface.get_frontier`: linear scan, first entry whose
account matches, `None` when absent. -/
def get_frontier (fs : List frontier_entry) (account : List Byte) :
    Option frontier_entry :=
  match fs with
  | [] => none
  | f :: rest => if f.account = account then some f else get_frontier rest account

/-- `store_in_ram_interface.add_frontier`: look up the first entry with the
same account; if found, overwrite that entry's `frontier_hash` in place,
otherwise append the new entry at the end. -/
def add_frontier (fs : List frontier_entry) (e : frontier_entry) :
    List frontier_entry :=
  match fs with
  | [] => [e]
  | f :: rest =>
    if f.account = e.account then { f with frontier_hash := e.frontier_hash } :: rest
    else f :: add_frontier rest e

/-- `store_in_ram_interface.remove_frontier`: look up the first entry with the
same account; if found, remove exactly that entry, otherwise no-op. -/
def remove_frontier (fs : List frontier_entry) (e : frontier_entry) :
    List frontier_entry :=
  match fs with
  | [] => []
  | f :: rest =>
    if f.account = e.account then rest else f :: remove_frontier rest e

/-- `store_in_ram_interface.count_frontiers`: `len(self.__frontiers)`. -/
def count_frontiers (fs : List frontier_entry) : Nat :=
  fs.length

/-- `store_in_ram_interface.get_all`: a shallow copy of the stored list. -/
def get_all (fs : List frontier_entry) : List frontier_entry :=
  fs

/-- The accounts currently stored, in list order. -/
def accounts (fs : List frontier_entry) : List (List Byte) :=
  fs.map frontier_entry.account

/-- A finite script of backend mutations, for stating store invariants. -/
inductive store_op where
  | add : frontier_entry → store_op
  | remove : frontier_entry → store_op

def apply_op (fs : List frontier_entry) : store_op → List frontier_entry
  | .add e => add_frontier fs e
  | .remove e => remove_frontier fs e

def run_ops (fs : List frontier_entry) : List store_op → List frontier_entry
  | [] => fs
  | op :: ops => run_ops (apply_op fs op) ops

/-- Spec-level account bookkeeping: the distinct accounts added so far and not
removed since (an add of an already-present account changes nothing, a
remove erases the account). -/
def spec_step (accs : List (List Byte)) : store_op → List (List Byte)
  | .add e => if e.account ∈ accs then accs else accs ++ [e.account]
  | .remove e => accs.erase e.account

def spec_accounts (accs : List (List Byte)) : List store_op → List (List Byte)
  | [] => accs
  | op :: ops => spec_accounts (spec_step accs op) ops

/-! ### The query server's per-connection handler (`frontier_service.comm_thread`)

In the single-account branch the code builds `server_packet([frontier])`
where `frontier` is `database_interface.get_frontier(...)`, which is `None`
when the account is absent.  `server_packet.serialise` then calls
`f.serialise()` on every list element; on `None` that raises
`AttributeError`, so the elements are modelled as `Option frontier_entry`
and serialisation of a list containing `none` fails. -/

/-- `f.serialise()` on a list element of `server_packet.serialise`: on `None`
(Python) there is no such method and an `AttributeError` is raised. -/
def serialiseElem : Option frontier_entry → Option (List Byte)
  | some f => some f.serialise
  | none => none

/-- The body loop of `server_packet.serialise`, over possibly-`None`
elements: the concatenation of the records, failing as soon as one element
fails to serialise. -/
def serialiseElems : List (Option frontier_entry) → Option (List Byte)
  | [] => some []
  | f :: rest =>
    match serialiseElem f, serialiseElems rest with
    | some bs, some bss => some (bs ++ bss)
    | _, _ => none

/-- `server_packet(frontiers).serialise()` where `frontiers` may contain
`None`: header for `len(frontiers)`, then every record, then the 64-byte
terminator; `none` when any element raises while serialising. -/
def server_packet_serialise_elems (fs : List (Option frontier_entry)) :
    Option (List Byte) :=
  match serialiseElems fs with
  | some body =>
    some ((server_packet_header.mk fs.length).serialise ++ body ++ List.replicate 64 0)
  | none => none

/-- `frontier_service.comm_thread` against the in-memory backend, as a
function from the stored frontiers and the 33 bytes read from the socket to
the bytes sent back: `none` means an exception escaped and nothing was sent
before the socket closed. -/
def comm_thread (store : List frontier_entry) (data : List Byte) :
    Option (List Byte) :=
  match client_packet.parse data with
  | none => none
  | some c =>
    if c.is_all_zero then
      server_packet_serialise_elems ((get_all store).map some)
    else
      server_packet_serialise_elems [get_frontier store c.account]

/-! ### blacklist_entry / blacklist_manager -/

/-- `blacklist_entry`: the blacklisted item and the `time.time()` at which it
was inserted. -/
structure blacklist_entry (α : Type) where
  item : α
  time : Int
deriving DecidableEq, Repr

/-- `blacklist_entry.has_expired`: `time.time() - self.time > expiry_time`,
with the current clock passed explicitly as `now`. -/
def blacklist_entry.has_expired {α : Type} (b : blacklist_entry α)
    (now : Int) (expiry_time : Int) : Bool :=
  now - b.time > expiry_time

/-- `blacklist_manager` state: the entry list and the optional TTL.  The
`object_type` runtime check of the Python constructor is the Lean type
parameter `α`, so only correctly-typed items can be passed at all. -/
structure blacklist_manager (α : Type) where
  blacklist : List (blacklist_entry α)
  expiry_time : Option Int
deriving DecidableEq, Repr

/-- `blacklist_manager.get_entry`: first entry whose item equals the argument,
`None` when absent. -/
def get_entry {α : Type} [DecidableEq α] (m : blacklist_manager α) (item : α) :
    Option (blacklist_entry α) :=
  m.blacklist.find? (fun b => b.item == item)

/-- `blacklist_manager.remove_entry`: `self.blacklist.remove(entry)`, removing
the first occurrence of the entry. -/
def remove_entry {α : Type} [DecidableEq α] (m : blacklist_manager α)
    (e : blacklist_entry α) : blacklist_manager α :=
  { m with blacklist := m.blacklist.erase e }

/-- `blacklist_manager.add_item` for a correctly-typed item (the `isinstance`
failure path is unreachable in the typed model): append a fresh entry
stamped `now` unless an entry for the item already exists. -/
def add_item {α : Type} [DecidableEq α] (m : blacklist_manager α) (item : α)
    (now : Int) : blacklist_manager α :=
  match get_entry m item with
  | some _ => m
  | none => { m with blacklist := m.blacklist ++ [⟨item, now⟩] }

/-- `blacklist_manager.is_blacklisted`, returning the boolean result and the
possibly-updated manager (lazy expiry removes the found entry). -/
def is_blacklisted {α : Type} [DecidableEq α] (m : blacklist_manager α)
    (now : Int) (item : α) : Bool × blacklist_manager α :=
  match get_entry m item with
  | none => (false, m)
  | some entry =>
    match m.expiry_time with
    | some ttl =>
      if entry.has_expired now ttl then (false, remove_entry m entry)
      else (true, m)
    | none => (true, m)

/-! ### The crawl pass (`frontier_service.single_pass`) -/

/-- A peer as the crawl pass sees it: its address identity and its mutable
score.  The full `Peer` class lives in the external `peer` module. -/
structure Peer where
  ip : Nat
  port : Nat
  score : Int
deriving DecidableEq, Repr

/-- Modelled from the spec: `Peer.deduct_score` is in the external `peer`
module, not under `src/`; spec §4.4 step 3 and §7 fix its effect as
subtracting the given amount from the peer's score. -/
def Peer.deduct_score (p : Peer) (amount : Int) : Peer :=
  { p with score := p.score - amount }

/-- `frontier_service.single_pass`: for every peer in the registry, attempt
the frontier pull; when it fails with one of the caught exception classes
(`fails` says whether the pull from that address fails), deduct 200 from
the peer's score and continue with the next peer — the `try`/`except`
guarantees no failure aborts the loop, so every peer is processed. -/
def single_pass (peers : List Peer) (fails : Nat × Nat → Bool) : List Peer :=
  match peers with
  | [] => []
  | p :: rest =>
    (if fails (p.ip, p.port) then p.deduct_score 200 else p) :: single_pass rest fails

end Pynano

namespace Pynano

/-! ### Helper lemmas -/

theorem serialiseBE_one (n : Nat) : serialiseBE 1 n = [n % 256] := rfl

theorem serialiseBE_length (k n : Nat) : (serialiseBE k n).length = k := by
  induction k generalizing n with
  | zero => rfl
  | succ m ih => simp [serialiseBE, ih]

theorem deserialiseBE_append (bs : List Byte) (b : Byte) :
    deserialiseBE (bs ++ [b]) = deserialiseBE bs * 256 + b := by
  simp [deserialiseBE, List.foldl_append]

theorem deserialiseBE_serialiseBE (k n : Nat) (h : n < 256 ^ k) :
    deserialiseBE (serialiseBE k n) = n := by
  induction k generalizing n with
  | zero =>
    simp only [pow_zero, Nat.lt_one_iff] at h
    simp [serialiseBE, deserialiseBE, h]
  | succ m ih =>
    have h256 : n / 256 < 256 ^ m := by
      rw [Nat.div_lt_iff_lt_mul (by norm_num)]
      calc n < 256 ^ (m + 1) := h
        _ = 256 ^ m * 256 := pow_succ 256 m
    rw [serialiseBE, deserialiseBE_append, ih (n / 256) h256]
    omega

/-! ### Claim theorems -/

/-- Claim C8: parsing the serialisation of a client request reproduces the
account exactly, for any 32-byte account, and the parsed request is
`is_all_zero` iff the account is 32 zero bytes. -/
theorem client_packet_round_trip (account : List Byte) (h : account.length = 32) :
    client_packet.parse (client_packet.serialise ⟨account⟩) = some ⟨account⟩ ∧
    (client_packet.is_all_zero ⟨account⟩ = true ↔ account = List.replicate 32 0) := by
  constructor
  · simp [client_packet.parse, client_packet.serialise, serialiseBE_one, h]
  · simp [client_packet.is_all_zero]

/-- Witness for C8 at the all-zero account. -/
theorem client_packet_round_trip_witness :
    (List.replicate 32 0 : List Byte).length = 32 ∧
    (client_packet.parse (client_packet.serialise ⟨List.replicate 32 0⟩) =
        some ⟨List.replicate 32 0⟩ ∧
      (client_packet.is_all_zero ⟨List.replicate 32 0⟩ = true ↔
        (List.replicate 32 0 : List Byte) = List.replicate 32 0)) :=
  ⟨by decide, client_packet_round_trip (List.replicate 32 0) (by decide)⟩

/-- Claim C4: a client request parses successfully exactly when it is 33 bytes
long and starts with the magic byte 0x4B, and a server response body parses
successfully exactly when its length is 64 times the header count plus the
64-byte terminator. -/
theorem parse_rejects_malformed :
    (∀ data : List Byte,
        (client_packet.parse data).isSome = true ↔
          data.length = 33 ∧ data.head? = some 75) ∧
    (∀ (n : Nat) (body : List Byte),
        (server_packet.parse ⟨n⟩ body).isSome = true ↔ body.length = 64 * n + 64) := by
  constructor
  · intro data
    unfold client_packet.parse
    split_ifs <;> simp_all
  · intro n body
    unfold server_packet.parse
    split_ifs <;> simp_all

/-- Claim C1 (code bug): a well-formed 33-byte request for a non-zero account
absent from the in-memory store makes `comm_thread` raise while serialising
`server_packet([None])` — `None` has no `serialise` — so no bytes at all
are sent before the connection closes, instead of the count-0 response the
spec promises. -/
theorem comm_thread_absent_account_no_response :
    (client_packet.parse (serialiseBE 1 75 ++ List.replicate 32 1)).isSome = true ∧
    client_packet.is_all_zero ⟨List.replicate 32 1⟩ = false ∧
    get_frontier [] (List.replicate 32 1) = none ∧
    comm_thread [] (serialiseBE 1 75 ++ List.replicate 32 1) = none := by
  exact ⟨by decide, by decide, rfl, by decide⟩

/-- Claim C10: adding an item that is already blacklisted leaves the manager
unchanged, so the existing entry with its original insertion timestamp is
still what lookup returns. -/
theorem add_item_noop_when_present (α : Type) [DecidableEq α]
    (m : blacklist_manager α) (item : α) (now : Int) (e : blacklist_entry α)
    (h : get_entry m item = some e) :
    add_item m item now = m ∧ get_entry (add_item m item now) item = some e := by
  have hm : add_item m item now = m := by
    unfold add_item
    rw [h]
  exact ⟨hm, by rw [hm]; exact h⟩

/-- Witness for C10: re-adding item 0 at time 99 keeps the entry stamped 5. -/
theorem add_item_noop_when_present_witness :
    get_entry (⟨[⟨0, 5⟩], some 1800⟩ : blacklist_manager Nat) 0 = some ⟨0, 5⟩ ∧
    (add_item (⟨[⟨0, 5⟩], some 1800⟩ : blacklist_manager Nat) 0 99 =
        ⟨[⟨0, 5⟩], some 1800⟩ ∧
      get_entry (add_item (⟨[⟨0, 5⟩], some 1800⟩ : blacklist_manager Nat) 0 99) 0 =
        some ⟨0, 5⟩) :=
  ⟨by decide, add_item_noop_when_present Nat ⟨[⟨0, 5⟩], some 1800⟩ 0 99 ⟨0, 5⟩ (by decide)⟩

end Pynano

namespace Pynano

theorem accounts_add_frontier (s : List frontier_entry) (e : frontier_entry) :
    accounts (add_frontier s e) =
      if e.account ∈ accounts s then accounts s else accounts s ++ [e.account] := by
  induction s with
  | nil => simp [add_frontier, accounts]
  | cons f rest ih =>
    simp only [add_frontier]
    by_cases hfe : f.account = e.account
    · rw [if_pos hfe]
      have hmem : e.account ∈ accounts (f :: rest) := by
        show e.account ∈ f.account :: accounts rest
        rw [hfe]
        exact List.mem_cons_self _ _
      rw [if_pos hmem]
      rfl
    · rw [if_neg hfe]
      have hacc : accounts (f :: add_frontier rest e)
          = f.account :: accounts (add_frontier rest e) := rfl
      rw [hacc, ih]
      have hmemiff : e.account ∈ accounts (f :: rest) ↔ e.account ∈ accounts rest := by
        show e.account ∈ f.account :: accounts rest ↔ e.account ∈ accounts rest
        constructor
        · intro hc
          rcases List.mem_cons.mp hc with hc | hc
          · exact absurd hc (fun hc2 => hfe hc2.symm)
          · exact hc
        · exact fun hc => List.mem_cons.mpr (Or.inr hc)
      by_cases hm : e.account ∈ accounts rest
      · rw [if_pos hm, if_pos (hmemiff.mpr hm)]
        rfl
      · rw [if_neg hm, if_neg (fun hc => hm (hmemiff.mp hc))]
        rfl

theorem add_frontier_nodup (s : List frontier_entry) (e : frontier_entry)
    (h : (accounts s).Nodup) : (accounts (add_frontier s e)).Nodup := by
  rw [accounts_add_frontier]
  split_ifs with hm
  · exact h
  · simp [List.nodup_append, h, hm]

theorem get_frontier_add_frontier_same (s : List frontier_entry) (e : frontier_entry) :
    get_frontier (add_frontier s e) e.account = some ⟨e.account, e.frontier_hash⟩ := by
  induction s with
  | nil => simp [add_frontier, get_frontier]
  | cons f rest ih =>
    by_cases hfe : f.account = e.account
    · simp [add_frontier, hfe, get_frontier]
    · simp [add_frontier, hfe, get_frontier, ih]

/-- Claim C2: on the in-memory backend, adding (A,H1) and then (A,H2) makes
`get_frontier A` return an entry whose hash is H2, and both intermediate
stores keep at most one entry per account. -/
theorem ram_store_last_write_wins (s : List frontier_entry)
    (A H1 H2 : List Byte) (h : (accounts s).Nodup) :
    (get_frontier (add_frontier (add_frontier s ⟨A, H1⟩) ⟨A, H2⟩) A).map
        frontier_entry.frontier_hash = some H2 ∧
    (accounts (add_frontier s ⟨A, H1⟩)).Nodup ∧
    (accounts (add_frontier (add_frontier s ⟨A, H1⟩) ⟨A, H2⟩)).Nodup := by
  refine ⟨?_, add_frontier_nodup s ⟨A, H1⟩ h,
    add_frontier_nodup _ ⟨A, H2⟩ (add_frontier_nodup s ⟨A, H1⟩ h)⟩
  rw [get_frontier_add_frontier_same (add_frontier s ⟨A, H1⟩) ⟨A, H2⟩]
  rfl

/-- Witness for C2 from the empty store. -/
theorem ram_store_last_write_wins_witness :
    (get_frontier (add_frontier (add_frontier [] ⟨[1], [2]⟩) ⟨[1], [3]⟩) [1]).map
        frontier_entry.frontier_hash = some [3] ∧
    (accounts (add_frontier [] ⟨[1], [2]⟩)).Nodup ∧
    (accounts (add_frontier (add_frontier [] ⟨[1], [2]⟩) ⟨[1], [3]⟩)).Nodup :=
  ram_store_last_write_wins [] [1] [2] [3] (by simp [accounts])

theorem parseEntries_append (n : Nat) (body trailer : List Byte)
    (hb : body.length = 64 * n) :
    parseEntries (body ++ trailer) n = parseEntries body n := by
  induction n generalizing body with
  | zero => simp [parseEntries]
  | succ m ih =>
    have h32 : 32 ≤ body.length := by omega
    have h64 : 64 ≤ body.length := by omega
    simp only [parseEntries, List.cons.injEq, frontier_entry.mk.injEq]
    refine ⟨⟨?_, ?_⟩, ?_⟩
    · exact List.take_append_of_le_length h32
    · rw [List.drop_append_of_le_length h32,
        List.take_append_of_le_length (by simp [List.length_drop]; omega)]
    · rw [List.drop_append_of_le_length h64]
      exact ih (body.drop 64) (by simp [List.length_drop]; omega)

/-- Claim C9: `server_packet.parse` checks only the total body length and
never inspects the trailing 64 terminator bytes: any correctly-sized body
with an arbitrary 64-byte tail parses to the entries decoded from its
first 64·count bytes. -/
theorem server_packet_parse_ignores_terminator (n : Nat) (body trailer : List Byte)
    (hbody : body.length = 64 * n) (htrailer : trailer.length = 64) :
    server_packet.parse ⟨n⟩ (body ++ trailer) = some ⟨parseEntries body n⟩ := by
  unfold server_packet.parse
  rw [if_pos (by simp [hbody, htrailer]), parseEntries_append n body trailer hbody]

/-- Witness for C9 with a non-zero trailer in place of the terminator. -/
theorem server_packet_parse_ignores_terminator_witness :
    (List.replicate 64 (5 : Nat)).length = 64 * 1 ∧
    (List.replicate 64 (7 : Nat)).length = 64 ∧
    server_packet.parse ⟨1⟩ (List.replicate 64 5 ++ List.replicate 64 7) =
      some ⟨parseEntries (List.replicate 64 5) 1⟩ :=
  ⟨by decide, by decide,
    server_packet_parse_ignores_terminator 1 _ _ (by decide) (by decide)⟩

theorem single_pass_length (peers : List Peer) (fails : Nat × Nat → Bool) :
    (single_pass peers fails).length = peers.length := by
  induction peers with
  | nil => rfl
  | cons p rest ih => simp [single_pass, ih]

theorem deduct_mem_single_pass (peers : List Peer) (fails : Nat × Nat → Bool)
    (p : Peer) (hp : p ∈ peers) (hf : fails (p.ip, p.port) = true) :
    p.deduct_score 200 ∈ single_pass peers fails := by
  induction peers with
  | nil => cases hp
  | cons q rest ih =>
    rcases List.mem_cons.mp hp with h | h
    · subst h
      simp [single_pass, hf]
    · exact List.mem_cons.mpr (Or.inr (ih h))

/-- Claim C7: in a crawl pass, a peer whose frontier pull fails has exactly
200 deducted from its score and is still in the registry afterwards; after
two failing passes its score is down by exactly 400 and it is still a
member; the pass processes every peer (no failure aborts it). -/
theorem single_pass_failure_scoring (peers : List Peer) (fails : Nat × Nat → Bool)
    (p : Peer) (hp : p ∈ peers) (hf : fails (p.ip, p.port) = true) :
    (single_pass peers fails).length = peers.length ∧
    { p with score := p.score - 200 } ∈ single_pass peers fails ∧
    { p with score := p.score - 400 } ∈
      single_pass (single_pass peers fails) fails := by
  refine ⟨single_pass_length peers fails, deduct_mem_single_pass peers fails p hp hf, ?_⟩
  have h1 : p.deduct_score 200 ∈ single_pass peers fails :=
    deduct_mem_single_pass peers fails p hp hf
  have h2 : (p.deduct_score 200).deduct_score 200 ∈
      single_pass (single_pass peers fails) fails :=
    deduct_mem_single_pass (single_pass peers fails) fails (p.deduct_score 200) h1 hf
  have heq : (p.deduct_score 200).deduct_score 200 = { p with score := p.score - 400 } := by
    simp [Peer.deduct_score]
    omega
  rwa [heq] at h2

/-- Witness for C7: one peer whose pull always fails. -/
theorem single_pass_failure_scoring_witness :
    (single_pass [⟨1, 7075, 1000⟩] (fun _ => true)).length =
      ([⟨1, 7075, 1000⟩] : List Peer).length ∧
    ({ ip := 1, port := 7075, score := 1000 - 200 } : Peer) ∈
      single_pass [⟨1, 7075, 1000⟩] (fun _ => true) ∧
    ({ ip := 1, port := 7075, score := 1000 - 400 } : Peer) ∈
      single_pass (single_pass [⟨1, 7075, 1000⟩] (fun _ => true)) (fun _ => true) :=
  single_pass_failure_scoring [⟨1, 7075, 1000⟩] (fun _ => true) ⟨1, 7075, 1000⟩
    (List.mem_singleton.mpr rfl) rfl

end Pynano

namespace Pynano

theorem accounts_remove_frontier (s : List frontier_entry) (e : frontier_entry) :
    accounts (remove_frontier s e) = (accounts s).erase e.account := by
  induction s with
  | nil => simp [remove_frontier, accounts]
  | cons f rest ih =>
    simp only [remove_frontier]
    by_cases hfe : f.account = e.account
    · rw [if_pos hfe]
      show accounts rest = (f.account :: accounts rest).erase e.account
      rw [hfe, List.erase_cons_head]
    · rw [if_neg hfe]
      show f.account :: accounts (remove_frontier rest e)
        = (f.account :: accounts rest).erase e.account
      rw [List.erase_cons_tail (by simpa using hfe), ih]

theorem accounts_apply_op (fs : List frontier_entry) (op : store_op) :
    accounts (apply_op fs op) = spec_step (accounts fs) op := by
  cases op with
  | add e => exact accounts_add_frontier fs e
  | remove e => exact accounts_remove_frontier fs e

theorem accounts_run_ops (ops : List store_op) (fs : List frontier_entry) :
    accounts (run_ops fs ops) = spec_accounts (accounts fs) ops := by
  induction ops generalizing fs with
  | nil => rfl
  | cons op rest ih =>
    show accounts (run_ops (apply_op fs op) rest)
      = spec_accounts (spec_step (accounts fs) op) rest
    rw [ih (apply_op fs op), accounts_apply_op]

/-- Claim C5: after any finite script of add/remove operations from the empty
in-memory store, the stored accounts are exactly the distinct accounts
added and not since removed (`spec_accounts`, computed from the script
alone, with updates of a present account changing nothing), and
`count_frontiers` equals their number. -/
theorem count_frontiers_tracks_distinct_accounts (ops : List store_op) :
    accounts (run_ops [] ops) = spec_accounts [] ops ∧
    count_frontiers (run_ops [] ops) = (spec_accounts [] ops).length := by
  have h := accounts_run_ops ops []
  refine ⟨h, ?_⟩
  have hlen : count_frontiers (run_ops [] ops) = (accounts (run_ops [] ops)).length := by
    simp [count_frontiers, accounts]
  rw [hlen, h]
  rfl

/-- Claim C6: `is_blacklisted` returns false and leaves the manager unchanged
when the item is absent; returns false and erases the found entry when a
TTL is configured and now minus the insertion time exceeds it; and returns
true leaving the manager unchanged when no TTL is configured or the entry
has not expired. -/
theorem is_blacklisted_spec (α : Type) [DecidableEq α] (m : blacklist_manager α)
    (now : Int) (item : α) :
    (get_entry m item = none → is_blacklisted m now item = (false, m)) ∧
    (∀ (e : blacklist_entry α) (ttl : Int),
        get_entry m item = some e → m.expiry_time = some ttl → now - e.time > ttl →
        is_blacklisted m now item
          = (false, { m with blacklist := m.blacklist.erase e })) ∧
    (∀ e : blacklist_entry α,
        get_entry m item = some e →
        (m.expiry_time = none ∨
          ∃ ttl, m.expiry_time = some ttl ∧ ¬now - e.time > ttl) →
        is_blacklisted m now item = (true, m)) := by
  refine ⟨?_, ?_, ?_⟩
  · intro h
    simp [is_blacklisted, h]
  · intro e ttl he httl hexp
    simp [is_blacklisted, he, httl, remove_entry, blacklist_entry.has_expired, hexp]
  · intro e he hcase
    rcases hcase with h | ⟨ttl, httl, hne⟩
    · simp [is_blacklisted, he, h]
    · simp [is_blacklisted, he, httl, blacklist_entry.has_expired, hne]

/-- Witness for C6: the three cases at concrete managers, with TTL 1800. -/
theorem is_blacklisted_spec_witness :
    is_blacklisted (⟨[], some 1800⟩ : blacklist_manager Nat) 0 7 =
      (false, ⟨[], some 1800⟩) ∧
    is_blacklisted (⟨[⟨7, 0⟩], some 1800⟩ : blacklist_manager Nat) 2000 7 =
      (false, ⟨[], some 1800⟩) ∧
    is_blacklisted (⟨[⟨7, 0⟩], some 1800⟩ : blacklist_manager Nat) 100 7 =
      (true, ⟨[⟨7, 0⟩], some 1800⟩) ∧
    is_blacklisted (⟨[⟨7, 0⟩], none⟩ : blacklist_manager Nat) 99999 7 =
      (true, ⟨[⟨7, 0⟩], none⟩) := by
  refine ⟨?_, ?_, ?_, ?_⟩
  · exact (is_blacklisted_spec Nat ⟨[], some 1800⟩ 0 7).1 (by decide)
  · exact (is_blacklisted_spec Nat ⟨[⟨7, 0⟩], some 1800⟩ 2000 7).2.1 ⟨7, 0⟩ 1800
      (by decide) rfl (by decide)
  · exact (is_blacklisted_spec Nat ⟨[⟨7, 0⟩], some 1800⟩ 100 7).2.2 ⟨7, 0⟩
      (by decide) (Or.inr ⟨1800, rfl, by decide⟩)
  · exact (is_blacklisted_spec Nat ⟨[⟨7, 0⟩], none⟩ 99999 7).2.2 ⟨7, 0⟩
      (by decide) (Or.inl rfl)

end Pynano

namespace Pynano

theorem server_packet_header_serialise_length (h : server_packet_header) :
    h.serialise.length = 9 := by
  simp [server_packet_header.serialise, serialiseBE_length]

theorem serialise_flatten_length (entries : List frontier_entry)
    (h : ∀ e ∈ entries, e.account.length = 32 ∧ e.frontier_hash.length = 32) :
    ((entries.map frontier_entry.serialise).flatten).length = 64 * entries.length := by
  induction entries with
  | nil => simp
  | cons e rest ih =>
    obtain ⟨ha, hh⟩ := h e (List.mem_cons_self _ _)
    have ihr := ih (fun x hx => h x (List.mem_cons.mpr (Or.inr hx)))
    simp [frontier_entry.serialise, ha, hh, ihr]
    ring

theorem parseEntries_cons (acc hsh X : List Byte) (n : Nat)
    (ha : acc.length = 32) (hh : hsh.length = 32) :
    parseEntries (acc ++ (hsh ++ X)) (n + 1)
      = frontier_entry.mk acc hsh :: parseEntries X n := by
  have h1 : (acc ++ (hsh ++ X)).take 32 = acc := by
    rw [List.take_append_of_le_length (by omega), ← ha, List.take_length]
  have h2 : (acc ++ (hsh ++ X)).drop 32 = hsh ++ X := by
    rw [List.drop_append_of_le_length (by omega), ← ha, List.drop_length,
      List.nil_append]
  have h3 : ((acc ++ (hsh ++ X)).drop 32).take 32 = hsh := by
    rw [h2, List.take_append_of_le_length (by omega), ← hh, List.take_length]
  have h4 : (acc ++ (hsh ++ X)).drop 64 = X := by
    have h64 : (64 : Nat) = 32 + 32 := rfl
    rw [h64, ← List.drop_drop, h2, List.drop_append_of_le_length (by omega),
      ← hh, List.drop_length, List.nil_append]
  rw [parseEntries, h1, h3, h4]

theorem parseEntries_serialise (entries : List frontier_entry) (tail : List Byte)
    (h : ∀ e ∈ entries, e.account.length = 32 ∧ e.frontier_hash.length = 32) :
    parseEntries ((entries.map frontier_entry.serialise).flatten ++ tail)
      entries.length = entries := by
  induction entries with
  | nil => simp [parseEntries]
  | cons e rest ih =>
    obtain ⟨acc, hsh⟩ := e
    obtain ⟨ha, hh⟩ := h _ (List.mem_cons_self _ _)
    have ihr := ih (fun x hx => h x (List.mem_cons.mpr (Or.inr hx)))
    simp only [List.map_cons, List.flatten_cons, List.length_cons,
      frontier_entry.serialise, List.append_assoc]
    rw [parseEntries_cons acc hsh _ rest.length ha hh, ihr]

/-- Claim C3: serialising a server packet of N well-formed entries yields
9 + 64·N + 64 bytes; its first 9 bytes parse back to a header with count N
and the remaining bytes parse back, against that count, to exactly the
input entries (followed by the 64-byte terminator, which parsing skips). -/
theorem server_packet_round_trip (entries : List frontier_entry)
    (h : ∀ e ∈ entries, e.account.length = 32 ∧ e.frontier_hash.length = 32)
    (hcount : entries.length < 2 ^ 64) :
    (server_packet.mk entries).serialise.length = 9 + 64 * entries.length + 64 ∧
    server_packet_header.parse ((server_packet.mk entries).serialise.take 9)
      = some ⟨entries.length⟩ ∧
    server_packet.parse ⟨entries.length⟩ ((server_packet.mk entries).serialise.drop 9)
      = some ⟨entries⟩ := by
  have hflat := serialise_flatten_length entries h
  have hhdr9 : (server_packet.mk entries).header.serialise.length = 9 :=
    server_packet_header_serialise_length _
  have hc256 : entries.length < 256 ^ 8 := by
    have hp : (256 : Nat) ^ 8 = 2 ^ 64 := by norm_num
    rw [hp]
    exact hcount
  have htake : (server_packet.mk entries).serialise.take 9
      = (server_packet.mk entries).header.serialise := by
    rw [server_packet.serialise, List.append_assoc,
      List.take_append_of_le_length (by rw [hhdr9]), ← hhdr9, List.take_length]
  have hdrop : (server_packet.mk entries).serialise.drop 9
      = (entries.map frontier_entry.serialise).flatten ++ List.replicate 64 0 := by
    rw [server_packet.serialise, List.append_assoc,
      List.drop_append_of_le_length (by rw [hhdr9]), ← hhdr9, List.drop_length,
      List.nil_append]
  refine ⟨?_, ?_, ?_⟩
  · simp [server_packet.serialise, hflat, hhdr9]
    omega
  · rw [htake]
    have hser : (server_packet.mk entries).header.serialise
        = 75 :: serialiseBE 8 entries.length := rfl
    rw [hser, server_packet_header.parse]
    have hcond : (75 :: serialiseBE 8 entries.length).head? = some 75 := rfl
    rw [if_pos hcond]
    have ht8 : ((75 :: serialiseBE 8 entries.length).drop 1).take 8
        = serialiseBE 8 entries.length := by
      show (serialiseBE 8 entries.length).take 8 = serialiseBE 8 entries.length
      exact List.take_of_length_le (by simp [serialiseBE_length])
    rw [ht8, deserialiseBE_serialiseBE 8 entries.length hc256]
  · rw [hdrop, server_packet.parse]
    rw [if_pos (by simp [hflat])]
    rw [parseEntries_serialise entries (List.replicate 64 0) h]

/-- Witness for C3 with one 64-byte entry. -/
theorem server_packet_round_trip_witness :
    (server_packet.mk [⟨List.replicate 32 1, List.replicate 32 2⟩]).serialise.length
      = 9 + 64 * 1 + 64 ∧
    server_packet_header.parse
        ((server_packet.mk [⟨List.replicate 32 1, List.replicate 32 2⟩]).serialise.take 9)
      = some ⟨1⟩ ∧
    server_packet.parse ⟨1⟩
        ((server_packet.mk [⟨List.replicate 32 1, List.replicate 32 2⟩]).serialise.drop 9)
      = some ⟨[⟨List.replicate 32 1, List.replicate 32 2⟩]⟩ :=
  server_packet_round_trip [⟨List.replicate 32 1, List.replicate 32 2⟩]
    (by decide) (by decide)

end Pynano
